import Mathlib

/-!
Verification model of the getk candlestick fetch-and-persist pipeline.

The Go sources are shallowly embedded. Pure helpers become Lean
functions. The per-job worker body becomes a trace-producing function
over an oracle of remote and database outcomes. The PostgreSQL table
touched by the prepared statements is modelled as an association list
keyed by timestamp, with the conflict-skipping insert semantics of the
store (an external collaborator) made explicit. Strings are handled as
lists of characters; Char.toLower coincides with the Go strings.ToLower
on the ASCII ticker symbols the program handles.
-/

/-- Model of the Go strings.Split on the separator "." as used by the
table-name derivations: splits a character list at every dot and always
returns at least one part, like the Go function. -/
def splitDot : List Char → List (List Char)
  | [] => [[]]
  | c :: cs =>
    match splitDot cs with
    | [] => [[c]]
    | p :: ps => if c = '.' then [] :: p :: ps else (c :: p) :: ps

/-- Model of strings.ToLower restricted to ASCII, which is all the
program feeds it (ticker symbols such as AAPL.US). -/
def goToLower (s : List Char) : List Char := s.map Char.toLower

/-- safeTableName from the concurrent entry point: index 0 and index 1
of the dot-split of the symbol, each lowercased, joined by an
underscore. Returns none exactly when the Go code would stop with an
index-out-of-range failure on strings.Split(symbol, ".")[1], that is
when the split has fewer than two parts. -/
def safeTableName (symbol : String) : Option String :=
  match splitDot symbol.data with
  | base :: region :: _ =>
      some (String.mk (goToLower base) ++ "_" ++ String.mk (goToLower region))
  | _ => none

/-- Table name used by EnsureTable in the concurrent entry point, which
calls safeTableName. -/
def ensureTableName (symbol : String) : Option String := safeTableName symbol

/-- Table name used by InsertCandlesticks in the concurrent entry
point, which calls safeTableName. -/
def insertTableName (symbol : String) : Option String := safeTableName symbol

/-- Table name used by the legacy sequential InsertCandlesticks and
EnsureTable: only the part before the first dot, lowercased, with no
region suffix and no underscore. -/
def seqTableName (symbol : String) : String :=
  match splitDot symbol.data with
  | [] => ""
  | base :: _ => String.mk (goToLower base)

/-- Absolute instant as produced by time.Unix(sec, 0): a wrapper around
the epoch-seconds count. -/
structure Instant where
  sec : Int
deriving DecidableEq

/-- Model of time.Unix(ts, 0): conversion of epoch seconds to an
absolute instant. -/
def timeUnix (ts : Int) : Instant := ⟨ts⟩

/-- Candlestick row type shared by both entry points. Price fields are
modelled as rationals: the SDK decimal type and its float conversion
are external collaborators, and no claim depends on rounding. -/
structure Candlestick where
  Symbol : String
  Timestamp : Instant
  Open : Rat
  Close : Rat
  High : Rat
  Low : Rat
  Volume : Int
  Turnover : Rat
deriving DecidableEq

/-- Raw remote data point as delivered by the quote client: an
epoch-seconds timestamp, four optional price fields, a required volume
and an optional turnover. -/
structure RawPoint where
  Timestamp : Int
  Open : Option Rat
  Close : Option Rat
  High : Option Rat
  Low : Option Rat
  Volume : Int
  Turnover : Option Rat
deriving DecidableEq

/-- Transform loop of the concurrent worker body: a point with any of
open, close, high, low absent is skipped; turnover is zero when absent;
the timestamp goes through time.Unix and volume is copied. -/
def transform (symbol : String) : List RawPoint → List Candlestick
  | [] => []
  | c :: cs =>
    match c.Open, c.Close, c.High, c.Low with
    | some o, some cl, some h, some l =>
        { Symbol := symbol
          Timestamp := timeUnix c.Timestamp
          Open := o
          Close := cl
          High := h
          Low := l
          Volume := c.Volume
          Turnover := match c.Turnover with | some t => t | none => 0 } :: transform symbol cs
    | _, _, _, _ => transform symbol cs

/-- A raw point is complete when all four of open, close, high, low are
present; only complete points survive the transform. -/
def isComplete (p : RawPoint) : Bool :=
  p.Open.isSome && p.Close.isSome && p.High.isSome && p.Low.isSome

/-- Record built by the transform from a complete raw point. -/
def mkRecord (symbol : String) (p : RawPoint) : Candlestick :=
  { Symbol := symbol
    Timestamp := timeUnix p.Timestamp
    Open := p.Open.getD 0
    Close := p.Close.getD 0
    High := p.High.getD 0
    Low := p.Low.getD 0
    Volume := p.Volume
    Turnover := p.Turnover.getD 0 }

/-- Destination table for one symbol: an association list from the
primary-key timestamp to the stored row. -/
abbrev Table := List (Instant × Candlestick)

/-- Lookup of a row by its primary-key timestamp. -/
def lookupTs : Table → Instant → Option Candlestick
  | [], _ => none
  | (k, c) :: rest, ts => if k = ts then some c else lookupTs rest ts

/-- One execution of the prepared insert statement, with the
ON CONFLICT (timestamp) DO NOTHING semantics of the store (an external
collaborator): a no-op when a row with the key already exists,
otherwise the new row is appended. -/
def insertRow (tbl : Table) (c : Candlestick) : Table :=
  match lookupTs tbl c.Timestamp with
  | some _ => tbl
  | none => tbl ++ [(c.Timestamp, c)]

/-- Timestamps present in the table. -/
def tsKeys (tbl : Table) : List Instant := tbl.map Prod.fst

/-- Insertion of every record in order with the conflict-skipping
semantics and no statement-level failures. -/
def insertAll (tbl : Table) : List Candlestick → Table
  | [] => tbl
  | c :: cs => insertAll (insertRow tbl c) cs

/-- Body of the insert loop of the concurrent InsertCandlesticks, with
an oracle telling which statement executions fail: a failing execution
is logged and skipped and the loop continues with the next record. -/
def insertLoop (execFail : Nat → Bool) : Nat → Table → List Candlestick → Table
  | _, tbl, [] => tbl
  | i, tbl, c :: cs =>
      insertLoop execFail (i + 1) (if execFail i then tbl else insertRow tbl c) cs

/-- InsertCandlesticks from the concurrent entry point. Preparing the
statement can fail, which is the only error the function returns
(modelled as none); afterwards each record is inserted in turn,
per-record failures are logged and skipped, and the function returns
success. The table argument stands for the destination table of the
symbol, whose name derivation is modelled by safeTableName. -/
def InsertCandlesticks (prepOk : Bool) (execFail : Nat → Bool)
    (tbl : Table) (records : List Candlestick) : Option Table :=
  if prepOk then some (insertLoop execFail 0 tbl records) else none

/-- Records whose statement executions do not fail, counted from the
given starting index: exactly the ones the insert loop applies. -/
def keptRecords (execFail : Nat → Bool) : Nat → List Candlestick → List Candlestick
  | _, [] => []
  | i, c :: cs =>
      if execFail i then keptRecords execFail (i + 1) cs
      else c :: keptRecords execFail (i + 1) cs

/-- Insert loop of the legacy sequential InsertCandlesticks on its
failure-free path: an existence check skips rows whose timestamp is
already present, and the remaining rows go through the same
conflict-skipping insert. -/
def insertLoopSeq : Table → List Candlestick → Table
  | tbl, [] => tbl
  | tbl, c :: cs =>
      if (lookupTs tbl c.Timestamp).isSome then insertLoopSeq tbl cs
      else insertLoopSeq (insertRow tbl c) cs

/-- Legacy sequential InsertCandlesticks: statement preparation can
fail and is the only returned error; otherwise the loop runs to the end
and the function returns success. -/
def InsertCandlesticksSeq (prepOk : Bool) (tbl : Table)
    (records : List Candlestick) : Option Table :=
  if prepOk then some (insertLoopSeq tbl records) else none

/-- One unit of fetch-and-persist work: a symbol and a calendar date
(dates are modelled by their ordinal number). -/
structure Job where
  symbol : String
  date : Int
deriving DecidableEq

/-- Job queue population of the concurrent entry point: the nested
loops over symbols (outer) and dates (inner) enqueue one job per pair. -/
def buildJobs : List String → List Int → List Job
  | [], _ => []
  | s :: ss, dates => dates.map (fun d => Job.mk s d) ++ buildJobs ss dates

/-- Ensure phase of the concurrent entry point: every symbol has its
table creation attempted; a failure is only printed and the loop moves
on to the next symbol. The result records each symbol with the outcome
of its creation attempt. -/
def ensurePhase (ensureFail : String → Bool) (symbols : List String) :
    List (String × Bool) :=
  symbols.map (fun s => (s, ensureFail s))

/-- Jobs enqueued by the concurrent entry point: the full cross-product
of symbols and dates, built without consulting the ensure outcomes. -/
def concMainJobs (ensureFail : String → Bool) (symbols : List String)
    (dates : List Int) : List Job :=
  buildJobs symbols dates

/-- Jobs actually executed by the legacy sequential entry point: a
symbol whose EnsureTable failed is skipped entirely (continue on the
symbol loop) and the remaining symbols proceed. -/
def seqMainJobsRun (ensureFail : String → Bool) : List String → List Int → List Job
  | [], _ => []
  | s :: ss, dates =>
      if ensureFail s then seqMainJobsRun ensureFail ss dates
      else dates.map (fun d => Job.mk s d) ++ seqMainJobsRun ensureFail ss dates

/-- Retry policy of the concurrent entry point. -/
structure RetryConfig where
  MaxAttempts : Nat
  BaseDelayMS : Nat
  MaxDelayMS : Nat

/-- Retry policy instance built in the concurrent entry point. -/
def retryCfg : RetryConfig := { MaxAttempts := 3, BaseDelayMS := 500, MaxDelayMS := 2000 }

/-- Backoff delay computed after a failed attempt: BaseDelayMS shifted
left by attempt minus one, capped at MaxDelayMS. -/
def backoffMS (cfg : RetryConfig) (attempt : Nat) : Nat :=
  let base := cfg.BaseDelayMS * (1 <<< (attempt - 1))
  if base > cfg.MaxDelayMS then cfg.MaxDelayMS else base

/-- Outcome of one remote HistoryCandlesticksByDate call. -/
inductive FetchOutcome where
  | fail : FetchOutcome
  | ok : List RawPoint → FetchOutcome

/-- Oracle of the external outcomes a single job can observe: the
result of the remote call on each attempt number, whether the insert
statement prepares, and which statement executions fail. -/
structure JobEnv where
  fetch : Nat → FetchOutcome
  prepOk : Bool
  execFail : Nat → Bool

/-- Observable steps of the worker body for one job: a receive from the
shared limiter channel, a remote fetch attempt, or a backoff sleep in
milliseconds. -/
inductive Event where
  | permit : Event
  | fetchAttempt : Nat → Event
  | sleep : Nat → Event
deriving DecidableEq

/-- Attempt loop of the worker body. The fuel starts at MaxAttempts and
mirrors the loop bound; on a remote failure with attempts remaining the
worker sleeps for the backoff and retries, on the final failure it
counts the job failed, and on a remote success it transforms the points
and runs InsertCandlesticks, whose error also fails the job. The middle
component is some true when the success counter is incremented, some
false when the failure counter is incremented, and none when the loop
exits without either (possible only with a zero attempt budget). -/
def runAttempts (cfg : RetryConfig) (env : JobEnv) (symbol : String) :
    Nat → Nat → Table → List Event × Option Bool × Table
  | _, 0, tbl => ([], none, tbl)
  | attempt, fuel + 1, tbl =>
    match env.fetch attempt with
    | FetchOutcome.fail =>
        if attempt < cfg.MaxAttempts then
          let r := runAttempts cfg env symbol (attempt + 1) fuel tbl
          (Event.fetchAttempt attempt :: Event.sleep (backoffMS cfg attempt) :: r.1, r.2)
        else
          ([Event.fetchAttempt attempt], some false, tbl)
    | FetchOutcome.ok points =>
        match InsertCandlesticks env.prepOk env.execFail tbl (transform symbol points) with
        | none => ([Event.fetchAttempt attempt], some false, tbl)
        | some t => ([Event.fetchAttempt attempt], some true, t)

/-- One full job as executed by the worker loop: a single receive from
the shared limiter channel, then the attempt loop starting at attempt
one with MaxAttempts of fuel. -/
def runJob (cfg : RetryConfig) (env : JobEnv) (symbol : String) (tbl : Table) :
    List Event × Option Bool × Table :=
  let r := runAttempts cfg env symbol 1 cfg.MaxAttempts tbl
  (Event.permit :: r.1, r.2)

/-- Number of limiter receives in a trace. -/
def countPermits (evs : List Event) : Nat :=
  evs.countP (fun e => match e with | Event.permit => true | _ => false)

/-- Number of remote fetch attempts in a trace. -/
def countFetches (evs : List Event) : Nat :=
  evs.countP (fun e => match e with | Event.fetchAttempt _ => true | _ => false)

/-- Backoff sleeps of a trace, in order, in milliseconds. -/
def sleepsOf (evs : List Event) : List Nat :=
  evs.filterMap (fun e => match e with | Event.sleep d => some d | _ => none)

/-- Pointwise update of the per-symbol table store. -/
def updateDB (db : String → Table) (s : String) (t : Table) : String → Table :=
  fun x => if x = s then t else db x

/-- Drain of a list of jobs, each with its oracle, threading the
per-symbol tables and accumulating the success and failure counters.
The worker pool is modelled by its aggregate effect: the counters are
updated atomically once per job, so their totals do not depend on the
interleaving of workers. -/
def runJobs (cfg : RetryConfig) : List (String × JobEnv) → (String → Table) →
    Nat × Nat × (String → Table)
  | [], db => (0, 0, db)
  | (s, env) :: rest, db =>
    let r := runJob cfg env s (db s)
    let tail := runJobs cfg rest (updateDB db s r.2.2)
    match r.2.1 with
    | some true => (tail.1 + 1, tail.2.1, tail.2.2)
    | some false => (tail.1, tail.2.1 + 1, tail.2.2)
    | none => tail

/-- Fixture: a complete raw point with no turnover. -/
def rawNoTurnover : RawPoint :=
  { Timestamp := 100, Open := some 1, Close := some 2, High := some 3, Low := some 4,
    Volume := 50, Turnover := none }

/-- Fixture: a stored row at timestamp five. -/
def rowA : Candlestick :=
  { Symbol := "AAPL.US", Timestamp := ⟨5⟩, Open := 1, Close := 2, High := 3, Low := 1,
    Volume := 10, Turnover := 7 }

/-- Fixture: a different row carrying the same timestamp five. -/
def rowB : Candlestick :=
  { Symbol := "AAPL.US", Timestamp := ⟨5⟩, Open := 9, Close := 9, High := 9, Low := 9,
    Volume := 99, Turnover := 9 }

/-- Fixture: table creation fails exactly for AAPL.US. -/
def efC9 : String → Bool := fun s => s == "AAPL.US"

/-- Fixture: the remote call fails on attempt one and succeeds with an
empty day on every later attempt. -/
def envC4 : JobEnv :=
  { fetch := fun a => if a = 1 then FetchOutcome.fail else FetchOutcome.ok []
    prepOk := true
    execFail := fun _ => false }

/-- Fixture: the remote call fails on every attempt. -/
def allFailEnv : JobEnv :=
  { fetch := fun _ => FetchOutcome.fail
    prepOk := true
    execFail := fun _ => false }

/-- Fixture: the remote call succeeds at once but the insert statement
does not prepare. -/
def prepFailEnv : JobEnv :=
  { fetch := fun _ => FetchOutcome.ok []
    prepOk := false
    execFail := fun _ => false }

/-- The dot-split is never empty, like the Go strings.Split result. -/
theorem splitDot_ne_nil (l : List Char) : splitDot l ≠ [] := by
  cases l with
  | nil => simp [splitDot]
  | cons c cs =>
    cases h : splitDot cs with
    | nil => simp [splitDot, h]
    | cons p ps => by_cases hc : c = '.' <;> simp [splitDot, h, hc]

/-- A dot-free list splits into the single part equal to itself. -/
theorem splitDot_no_dot {l : List Char} (h : '.' ∉ l) : splitDot l = [l] := by
  induction l with
  | nil => rfl
  | cons c cs ih =>
    have hc : c ≠ '.' := fun hch => h (hch ▸ List.mem_cons_self c cs)
    have hcs : '.' ∉ cs := fun hm => h (List.mem_cons_of_mem c hm)
    simp [splitDot, ih hcs, hc]

/-- Splitting a list that starts with a dot-free part followed by a dot
peels off that part. -/
theorem splitDot_append {base : List Char} (rest : List Char) (h : '.' ∉ base) :
    splitDot (base ++ '.' :: rest) = base :: splitDot rest := by
  induction base with
  | nil =>
    cases hr : splitDot rest with
    | nil => exact absurd hr (splitDot_ne_nil rest)
    | cons p ps => simp [splitDot, hr]
  | cons c bs ih =>
    have hc : c ≠ '.' := fun hch => h (hch ▸ List.mem_cons_self c bs)
    have hbs : '.' ∉ bs := fun hm => h (List.mem_cons_of_mem c hm)
    simp [splitDot, ih hbs, hc]

/-- A list containing a dot splits into at least two parts. -/
theorem splitDot_two_parts {l : List Char} (h : '.' ∈ l) :
    ∃ p q ps, splitDot l = p :: q :: ps := by
  induction l with
  | nil => cases h
  | cons c cs ih =>
    by_cases hc : c = '.'
    · cases hp : splitDot cs with
      | nil => exact absurd hp (splitDot_ne_nil cs)
      | cons p ps => exact ⟨[], p, ps, by simp [splitDot, hp, hc]⟩
    · have hcs : '.' ∈ cs := by
        rcases List.mem_cons.mp h with h1 | h1
        · exact absurd h1.symm hc
        · exact h1
      obtain ⟨p, q, ps, hpq⟩ := ih hcs
      exact ⟨c :: p, q, ps, by simp [splitDot, hpq, hc]⟩

/-- C3 counterexample: the legacy sequential InsertCandlesticks and
EnsureTable derive the table for AAPL.US as aapl, not aapl_us, so the
claimed derivation is not identical in every operation that derives a
table name. -/
theorem C3_seq_table_name_cex :
    seqTableName "AAPL.US" = "aapl" ∧ seqTableName "AAPL.US" ≠ "aapl_us" := by
  constructor
  · rfl
  · decide

/-- C3 (amended): in the concurrent entry point both EnsureTable and
InsertCandlesticks derive the table name through safeTableName, which
maps a symbol of the form base dot region to the lowercased base joined
to the lowercased region by an underscore (AAPL.US to aapl_us, 0700.HK
to 0700_hk), a pure function of the symbol; the legacy sequential entry
point instead uses only the lowercased base with no region suffix. -/
theorem C3_table_name_derivation :
    (∀ base region : List Char, '.' ∉ base → '.' ∉ region →
      safeTableName (String.mk (base ++ '.' :: region)) =
        some (String.mk (goToLower base) ++ "_" ++ String.mk (goToLower region)) ∧
      seqTableName (String.mk (base ++ '.' :: region)) = String.mk (goToLower base)) ∧
    (∀ symbol : String, ensureTableName symbol = safeTableName symbol ∧
      insertTableName symbol = safeTableName symbol) ∧
    safeTableName "AAPL.US" = some "aapl_us" ∧
    safeTableName "0700.HK" = some "0700_hk" := by
  refine ⟨?_, fun symbol => ⟨rfl, rfl⟩, by decide, by decide⟩
  intro base region hb hr
  have hdata : (String.mk (base ++ '.' :: region)).data = base ++ '.' :: region := rfl
  have h1 : splitDot (base ++ '.' :: region) = base :: [region] := by
    rw [splitDot_append region hb, splitDot_no_dot hr]
  constructor
  · show (match splitDot (String.mk (base ++ '.' :: region)).data with
      | base :: region :: _ =>
          some (String.mk (goToLower base) ++ "_" ++ String.mk (goToLower region))
      | _ => none) =
      some (String.mk (goToLower base) ++ "_" ++ String.mk (goToLower region))
    rw [hdata, h1]
  · show (match splitDot (String.mk (base ++ '.' :: region)).data with
      | [] => ""
      | base :: _ => String.mk (goToLower base)) = String.mk (goToLower base)
    rw [hdata, h1]

/-- C3 witness at the concrete symbol AAPL.US. -/
theorem C3_table_name_derivation_witness :
    safeTableName (String.mk ("AAPL".data ++ '.' :: "US".data)) =
      some (String.mk (goToLower "AAPL".data) ++ "_" ++ String.mk (goToLower "US".data)) :=
  (C3_table_name_derivation.1 "AAPL".data "US".data (by decide) (by decide)).1

/-- C10: safeTableName, and through it EnsureTable and
InsertCandlesticks of the concurrent entry point, fails by indexing
past the end of the split (modelled none) on every symbol without a dot,
and is total exactly on the symbols containing at least one dot. -/
theorem C10_safe_table_name_needs_dot (s : String) :
    ('.' ∉ s.data → safeTableName s = none) ∧
    ('.' ∈ s.data → safeTableName s ≠ none) := by
  constructor
  · intro h
    have h1 : splitDot s.data = [s.data] := splitDot_no_dot h
    show (match splitDot s.data with
      | base :: region :: _ =>
          some (String.mk (goToLower base) ++ "_" ++ String.mk (goToLower region))
      | _ => none) = none
    rw [h1]
  · intro h
    obtain ⟨p, q, ps, hpq⟩ := splitDot_two_parts h
    show (match splitDot s.data with
      | base :: region :: _ =>
          some (String.mk (goToLower base) ++ "_" ++ String.mk (goToLower region))
      | _ => none) ≠ none
    rw [hpq]
    simp

/-- C10 witness: a dotless symbol makes the derivation fail and a
dotted one does not. -/
theorem C10_safe_table_name_needs_dot_witness :
    safeTableName "AAPL" = none ∧ safeTableName "AAPL.US" ≠ none :=
  ⟨(C10_safe_table_name_needs_dot "AAPL").1 (by decide),
   (C10_safe_table_name_needs_dot "AAPL.US").2 (by decide)⟩

/-- The transform is exactly the filter of complete points followed by
the record construction. -/
theorem transform_eq_filter_map (symbol : String) (points : List RawPoint) :
    transform symbol points = (points.filter isComplete).map (mkRecord symbol) := by
  induction points with
  | nil => rfl
  | cons p ps ih =>
    cases hO : p.Open <;> cases hC : p.Close <;> cases hH : p.High <;> cases hL : p.Low <;>
      cases hT : p.Turnover <;>
      simp [transform, isComplete, mkRecord, hO, hC, hH, hL, hT, ih, Option.getD]

/-- C2: the transform produces exactly one record per raw point whose
open, close, high and low are all present and silently drops every
other point; in every produced record the turnover equals the source
turnover when present and zero when absent, and the volume and the
timestamp (converted from epoch seconds to an absolute instant) are
carried over unchanged. -/
theorem C2_transform_filters_and_defaults (symbol : String) (points : List RawPoint) :
    transform symbol points = (points.filter isComplete).map (mkRecord symbol) ∧
    (∀ p : RawPoint, isComplete p = true ↔
      (p.Open ≠ none ∧ p.Close ≠ none ∧ p.High ≠ none ∧ p.Low ≠ none)) ∧
    (∀ p : RawPoint,
      (∀ t : Rat, p.Turnover = some t → (mkRecord symbol p).Turnover = t) ∧
      (p.Turnover = none → (mkRecord symbol p).Turnover = 0) ∧
      (mkRecord symbol p).Volume = p.Volume ∧
      (mkRecord symbol p).Timestamp = timeUnix p.Timestamp ∧
      (timeUnix p.Timestamp).sec = p.Timestamp) := by
  refine ⟨transform_eq_filter_map symbol points, ?_, ?_⟩
  · intro p
    simp [isComplete, Bool.and_eq_true, Option.isSome_iff_ne_none, and_assoc]
  · intro p
    refine ⟨?_, ?_, rfl, rfl, rfl⟩
    · intro t ht
      simp [mkRecord, ht]
    · intro ht
      simp [mkRecord, ht]

/-- C2 witness: a complete point with absent turnover is kept and gets
turnover zero. -/
theorem C2_transform_filters_and_defaults_witness :
    (mkRecord "AAPL.US" rawNoTurnover).Turnover = 0 ∧
    isComplete rawNoTurnover = true :=
  ⟨((C2_transform_filters_and_defaults "AAPL.US" []).2.2 rawNoTurnover).2.1 rfl,
   ((C2_transform_filters_and_defaults "AAPL.US" []).2.1 rawNoTurnover).mpr (by decide)⟩

/-- The lookup succeeds exactly on the timestamps present in the table. -/
theorem lookupTs_ne_none_iff (tbl : Table) (ts : Instant) :
    lookupTs tbl ts ≠ none ↔ ts ∈ tsKeys tbl := by
  induction tbl with
  | nil => simp [lookupTs, tsKeys]
  | cons kc rest ih =>
    obtain ⟨k, c⟩ := kc
    by_cases h : k = ts
    · simp [lookupTs, tsKeys, h]
    · have hne : ts ≠ k := fun he => h he.symm
      have hk : tsKeys ((k, c) :: rest) = k :: tsKeys rest := rfl
      simp only [lookupTs, if_neg h, hk, ih, List.mem_cons]
      simp [hne]

/-- The conflict-skipping insert is a no-op when the key is present. -/
theorem insertRow_of_mem {tbl : Table} {c : Candlestick}
    (h : c.Timestamp ∈ tsKeys tbl) : insertRow tbl c = tbl := by
  have h1 : lookupTs tbl c.Timestamp ≠ none := (lookupTs_ne_none_iff tbl _).mpr h
  cases h2 : lookupTs tbl c.Timestamp with
  | none => exact absurd h2 h1
  | some r => simp [insertRow, h2]

/-- The insert never removes a key. -/
theorem tsKeys_insertRow_sub (tbl : Table) (c : Candlestick) :
    tsKeys tbl ⊆ tsKeys (insertRow tbl c) := by
  cases h : lookupTs tbl c.Timestamp with
  | some r => simp [insertRow, h]
  | none =>
    intro a ha
    simp only [insertRow, h, tsKeys, List.map_append, List.mem_append]
    exact Or.inl ha

/-- After the insert, the key of the inserted record is present. -/
theorem mem_tsKeys_insertRow_self (tbl : Table) (c : Candlestick) :
    c.Timestamp ∈ tsKeys (insertRow tbl c) := by
  cases h : lookupTs tbl c.Timestamp with
  | some r =>
    have := (lookupTs_ne_none_iff tbl c.Timestamp).mp (by simp [h])
    simpa [insertRow, h] using this
  | none => simp [insertRow, h, tsKeys, List.map_append]

/-- Keys only grow across a batch insertion. -/
theorem tsKeys_insertAll_sub (tbl : Table) (rs : List Candlestick) :
    tsKeys tbl ⊆ tsKeys (insertAll tbl rs) := by
  induction rs generalizing tbl with
  | nil => exact fun a ha => ha
  | cons c cs ih =>
    intro a ha
    simp only [insertAll]
    exact ih (insertRow tbl c) (tsKeys_insertRow_sub tbl c ha)

/-- After a batch insertion every inserted timestamp is present. -/
theorem mem_tsKeys_insertAll (tbl : Table) (rs : List Candlestick) :
    ∀ c ∈ rs, c.Timestamp ∈ tsKeys (insertAll tbl rs) := by
  induction rs generalizing tbl with
  | nil => intro c hc; cases hc
  | cons c cs ih =>
    intro r hr
    rcases List.mem_cons.mp hr with h | h
    · subst h
      simp only [insertAll]
      exact tsKeys_insertAll_sub (insertRow tbl r) cs (mem_tsKeys_insertRow_self tbl r)
    · simp only [insertAll]
      exact ih (insertRow tbl c) r h

/-- Inserting records whose timestamps are all already present changes
nothing. -/
theorem insertAll_of_all_mem {tbl : Table} {rs : List Candlestick}
    (h : ∀ c ∈ rs, c.Timestamp ∈ tsKeys tbl) : insertAll tbl rs = tbl := by
  induction rs with
  | nil => rfl
  | cons c cs ih =>
    have h1 : insertRow tbl c = tbl := insertRow_of_mem (h c (List.mem_cons_self c cs))
    simp only [insertAll, h1]
    exact ih (fun r hr => h r (List.mem_cons_of_mem c hr))

/-- Batch insertion is idempotent. -/
theorem insertAll_idem (tbl : Table) (rs : List Candlestick) :
    insertAll (insertAll tbl rs) rs = insertAll tbl rs :=
  insertAll_of_all_mem (fun c hc => mem_tsKeys_insertAll tbl rs c hc)

/-- Looking up a key of the left part of an appended table ignores the
right part. -/
theorem lookupTs_append_of_mem {tbl : Table} {ts : Instant} (h : ts ∈ tsKeys tbl)
    (l : Table) : lookupTs (tbl ++ l) ts = lookupTs tbl ts := by
  induction tbl with
  | nil => simp [tsKeys] at h
  | cons kc rest ih =>
    obtain ⟨k, c⟩ := kc
    by_cases hk : k = ts
    · simp [lookupTs, hk]
    · have hmem : ts ∈ tsKeys rest := by
        have hcons : tsKeys ((k, c) :: rest) = k :: tsKeys rest := rfl
        rw [hcons] at h
        rcases List.mem_cons.mp h with h1 | h1
        · exact absurd h1.symm hk
        · exact h1
      simp [lookupTs, hk, ih hmem]

/-- A single conflict-skipping insert never changes an existing row. -/
theorem lookupTs_insertRow_of_mem {tbl : Table} {ts : Instant} (c : Candlestick)
    (h : ts ∈ tsKeys tbl) : lookupTs (insertRow tbl c) ts = lookupTs tbl ts := by
  cases hc : lookupTs tbl c.Timestamp with
  | some r => simp [insertRow, hc]
  | none => simp [insertRow, hc, lookupTs_append_of_mem h]

/-- A batch insertion never changes an existing row. -/
theorem lookupTs_insertAll_of_mem (tbl : Table) (rs : List Candlestick) (ts : Instant)
    (h : ts ∈ tsKeys tbl) : lookupTs (insertAll tbl rs) ts = lookupTs tbl ts := by
  induction rs generalizing tbl with
  | nil => rfl
  | cons c cs ih =>
    simp only [insertAll]
    rw [ih (insertRow tbl c) (tsKeys_insertRow_sub tbl c h)]
    exact lookupTs_insertRow_of_mem c h

/-- A single insert keeps the keys duplicate-free. -/
theorem nodup_tsKeys_insertRow {tbl : Table} (c : Candlestick)
    (h : (tsKeys tbl).Nodup) : (tsKeys (insertRow tbl c)).Nodup := by
  cases hc : lookupTs tbl c.Timestamp with
  | some r => simpa [insertRow, hc] using h
  | none =>
    have hnm : c.Timestamp ∉ tsKeys tbl := by
      intro hm
      exact absurd hc (by simpa using (lookupTs_ne_none_iff tbl c.Timestamp).mpr hm)
    have hkeys : tsKeys (tbl ++ [(c.Timestamp, c)]) = tsKeys tbl ++ [c.Timestamp] := by
      simp [tsKeys]
    rw [insertRow, hc, hkeys]
    rw [List.nodup_append]
    refine ⟨h, List.nodup_singleton _, ?_⟩
    intro a ha hb
    rcases List.mem_singleton.mp hb with rfl
    exact hnm ha

/-- A batch insertion keeps the keys duplicate-free. -/
theorem nodup_tsKeys_insertAll (tbl : Table) (rs : List Candlestick)
    (h : (tsKeys tbl).Nodup) : (tsKeys (insertAll tbl rs)).Nodup := by
  induction rs generalizing tbl with
  | nil => exact h
  | cons c cs ih =>
    simp only [insertAll]
    exact ih (insertRow tbl c) (nodup_tsKeys_insertRow c h)

/-- The insert loop applies exactly the conflict-skipping insert to the
records kept by the failure oracle. -/
theorem insertLoop_eq_insertAll_kept (execFail : Nat → Bool) (i : Nat) (tbl : Table)
    (rs : List Candlestick) :
    insertLoop execFail i tbl rs = insertAll tbl (keptRecords execFail i rs) := by
  induction rs generalizing i tbl with
  | nil => rfl
  | cons c cs ih =>
    by_cases h : execFail i
    · simp [insertLoop, keptRecords, h, ih]
    · simp [insertLoop, keptRecords, h, ih, insertAll]

/-- With no statement failures every record is kept. -/
theorem keptRecords_noFail (i : Nat) (rs : List Candlestick) :
    keptRecords (fun _ => false) i rs = rs := by
  induction rs generalizing i with
  | nil => rfl
  | cons c cs ih => simp [keptRecords, ih]

/-- The legacy existence-check loop computes the same table as the
conflict-skipping batch insertion. -/
theorem insertLoopSeq_eq_insertAll (tbl : Table) (rs : List Candlestick) :
    insertLoopSeq tbl rs = insertAll tbl rs := by
  induction rs generalizing tbl with
  | nil => rfl
  | cons c cs ih =>
    by_cases h : (lookupTs tbl c.Timestamp).isSome
    · have h1 : insertRow tbl c = tbl := by
        cases h2 : lookupTs tbl c.Timestamp with
        | none => rw [h2] at h; cases h
        | some r => simp [insertRow, h2]
      simp [insertLoopSeq, insertAll, h, h1, ih]
    · simp [insertLoopSeq, insertAll, h, ih]

/-- C1: InsertCandlesticks is idempotent. A record whose timestamp is
already in the table is skipped, the existing row is never overwritten
and no error is raised on the collision; running InsertCandlesticks a
second time over the same records returns the same final row set as the
first run, the keys stay duplicate-free, and the legacy sequential
InsertCandlesticks computes the same table on its failure-free path. -/
theorem C1_insert_idempotent (tbl : Table) (rs : List Candlestick) :
    InsertCandlesticks true (fun _ => false) tbl rs = some (insertAll tbl rs) ∧
    InsertCandlesticks true (fun _ => false) (insertAll tbl rs) rs =
      some (insertAll tbl rs) ∧
    (∀ ts : Instant, ts ∈ tsKeys tbl →
      lookupTs (insertAll tbl rs) ts = lookupTs tbl ts) ∧
    ((tsKeys tbl).Nodup → (tsKeys (insertAll tbl rs)).Nodup) ∧
    InsertCandlesticksSeq true tbl rs = some (insertAll tbl rs) := by
  have hbase : ∀ t : Table,
      InsertCandlesticks true (fun _ => false) t rs = some (insertAll t rs) := by
    intro t
    simp [InsertCandlesticks, insertLoop_eq_insertAll_kept, keptRecords_noFail]
  refine ⟨hbase tbl, ?_, lookupTs_insertAll_of_mem tbl rs,
    nodup_tsKeys_insertAll tbl rs, ?_⟩
  · rw [hbase (insertAll tbl rs), insertAll_idem]
  · simp [InsertCandlesticksSeq, insertLoopSeq_eq_insertAll]

/-- C1 witness: inserting a row whose timestamp five already exists
leaves the stored row unchanged and the keys duplicate-free. -/
theorem C1_insert_idempotent_witness :
    lookupTs (insertAll [(⟨5⟩, rowA)] [rowB]) ⟨5⟩ = lookupTs [(⟨5⟩, rowA)] ⟨5⟩ ∧
    (tsKeys (insertAll [(⟨5⟩, rowA)] [rowB])).Nodup :=
  ⟨(C1_insert_idempotent [(⟨5⟩, rowA)] [rowB]).2.2.1 ⟨5⟩ (by decide),
   (C1_insert_idempotent [(⟨5⟩, rowA)] [rowB]).2.2.2.1 (by decide)⟩

/-- When a fetch succeeds and the insert returns an error, the attempt
loop ends the job as a counted failure with the table unchanged. -/
theorem runAttempts_ok_insert_none (cfg : RetryConfig) (env : JobEnv) (symbol : String)
    (a fuel : Nat) (tbl : Table) (points : List RawPoint)
    (hf : env.fetch a = FetchOutcome.ok points)
    (hi : InsertCandlesticks env.prepOk env.execFail tbl (transform symbol points) = none) :
    (runAttempts cfg env symbol a (fuel + 1) tbl).2 = (some false, tbl) := by
  simp [runAttempts, hf, hi]

/-- C8: a failing statement execution inside InsertCandlesticks is
logged and skipped without aborting the batch; the records at the other
positions are still inserted and the function returns success whatever
the per-record failures were; only a failure to prepare the statement
is returned as the batch error, and that error ends the containing job
as a counted failure. -/
theorem C8_insert_tolerates_row_failures (execFail : Nat → Bool) (tbl : Table)
    (rs : List Candlestick) :
    InsertCandlesticks true execFail tbl rs =
      some (insertAll tbl (keptRecords execFail 0 rs)) ∧
    InsertCandlesticks true execFail tbl rs ≠ none ∧
    InsertCandlesticks false execFail tbl rs = none ∧
    (∀ (env : JobEnv) (symbol : String) (points : List RawPoint),
      env.prepOk = false → env.fetch 1 = FetchOutcome.ok points →
      (runJob retryCfg env symbol tbl).2.1 = some false) := by
  refine ⟨?_, ?_, rfl, ?_⟩
  · simp [InsertCandlesticks, insertLoop_eq_insertAll_kept]
  · simp [InsertCandlesticks]
  · intro env symbol points hp hf
    have hi : InsertCandlesticks env.prepOk env.execFail tbl (transform symbol points) = none := by
      rw [hp]
      rfl
    have hstep := runAttempts_ok_insert_none retryCfg env symbol 1 2 tbl points hf hi
    show (runAttempts retryCfg env symbol 1 retryCfg.MaxAttempts tbl).2.1 = some false
    rw [show retryCfg.MaxAttempts = 2 + 1 from rfl, hstep]

/-- C8 witness: a job whose fetch succeeds but whose insert statement
does not prepare is counted as failed. -/
theorem C8_insert_tolerates_row_failures_witness :
    (runJob retryCfg prepFailEnv "AAPL.US" []).2.1 = some false :=
  (C8_insert_tolerates_row_failures (fun _ => false) [] []).2.2.2
    prepFailEnv "AAPL.US" [] rfl rfl

/-- The queue holds one job per symbol and date of the cross-product. -/
theorem buildJobs_length (symbols : List String) (dates : List Int) :
    (buildJobs symbols dates).length = symbols.length * dates.length := by
  induction symbols with
  | nil => simp [buildJobs]
  | cons s ss ih =>
    simp only [buildJobs, List.length_append, List.length_map, ih, List.length_cons,
      Nat.succ_mul]
    omega

/-- A pair is enqueued exactly when its symbol and date are configured. -/
theorem buildJobs_mem (symbols : List String) (dates : List Int) (s : String) (d : Int) :
    Job.mk s d ∈ buildJobs symbols dates ↔ (s ∈ symbols ∧ d ∈ dates) := by
  induction symbols with
  | nil => simp [buildJobs]
  | cons s0 ss ih =>
    simp only [buildJobs, List.mem_append, List.mem_map, ih, List.mem_cons, Job.mk.injEq]
    constructor
    · rintro (⟨x, hx, hs, hd⟩ | ⟨hs, hd⟩)
      · subst hs; subst hd; exact ⟨Or.inl rfl, hx⟩
      · exact ⟨Or.inr hs, hd⟩
    · rintro ⟨hs | hs, hd⟩
      · subst hs; exact Or.inl ⟨d, hd, rfl, rfl⟩
      · exact Or.inr ⟨hs, hd⟩

/-- The jobs of one symbol iteration count a pair once per matching
date, and zero times for any other symbol. -/
theorem count_map_mkJob (s s0 : String) (d : Int) (dates : List Int) :
    (dates.map (fun x => Job.mk s0 x)).count (Job.mk s d) =
      if s0 = s then dates.count d else 0 := by
  induction dates with
  | nil => simp
  | cons d0 ds ih =>
    by_cases hs : s0 = s
    · subst hs
      by_cases hd : d0 = d <;>
        simp [List.count_cons, ih, hd, Job.mk.injEq]
    · simp [List.count_cons, ih, hs, Job.mk.injEq]

/-- Each pair is enqueued as many times as its symbol and date occur. -/
theorem buildJobs_count (symbols : List String) (dates : List Int) (s : String) (d : Int) :
    (buildJobs symbols dates).count (Job.mk s d) = symbols.count s * dates.count d := by
  induction symbols with
  | nil => simp [buildJobs]
  | cons s0 ss ih =>
    by_cases hs : s0 = s
    · subst hs
      simp only [buildJobs, List.count_append, ih, count_map_mkJob, if_pos rfl,
        List.count_cons, beq_self_eq_true, if_pos, Nat.succ_mul]
      omega
    · simp [buildJobs, List.count_append, ih, count_map_mkJob, hs, List.count_cons]

/-- Duplicate-free inputs enqueue each pair at most once. -/
theorem buildJobs_nodup {symbols : List String} {dates : List Int}
    (hS : symbols.Nodup) (hD : dates.Nodup) : (buildJobs symbols dates).Nodup := by
  rw [List.nodup_iff_count_le_one]
  intro j
  obtain ⟨s, d⟩ := j
  rw [buildJobs_count]
  have h1 : symbols.count s ≤ 1 := List.nodup_iff_count_le_one.mp hS s
  have h2 : dates.count d ≤ 1 := List.nodup_iff_count_le_one.mp hD d
  calc symbols.count s * dates.count d ≤ 1 * 1 := Nat.mul_le_mul h1 h2
    _ = 1 := rfl

/-- An empty date list enqueues nothing. -/
theorem buildJobs_nil_dates (symbols : List String) :
    buildJobs symbols ([] : List Int) = [] := by
  induction symbols with
  | nil => rfl
  | cons s ss ih => simp [buildJobs, ih]

/-- C6: the task set builder enqueues exactly one job per pair of the
cross-product of the configured symbols and dates, with the total count
equal to their product, nothing dropped, each pair occurring as often
as its components occur (hence exactly once for duplicate-free inputs),
and empty inputs producing an empty task set without error. -/
theorem C6_task_set_cross_product (symbols : List String) (dates : List Int) :
    (buildJobs symbols dates).length = symbols.length * dates.length ∧
    (∀ (s : String) (d : Int),
      Job.mk s d ∈ buildJobs symbols dates ↔ (s ∈ symbols ∧ d ∈ dates)) ∧
    (∀ (s : String) (d : Int),
      (buildJobs symbols dates).count (Job.mk s d) = symbols.count s * dates.count d) ∧
    (symbols.Nodup → dates.Nodup → (buildJobs symbols dates).Nodup) ∧
    buildJobs [] dates = [] ∧ buildJobs symbols ([] : List Int) = [] :=
  ⟨buildJobs_length symbols dates,
   buildJobs_mem symbols dates,
   buildJobs_count symbols dates,
   fun hS hD => buildJobs_nodup hS hD,
   rfl,
   buildJobs_nil_dates symbols⟩

/-- C6 witness at two symbols and two dates. -/
theorem C6_task_set_cross_product_witness :
    (buildJobs ["AAPL.US", "TSLA.US"] [1, 2]).length = 4 ∧
    Job.mk "AAPL.US" 2 ∈ buildJobs ["AAPL.US", "TSLA.US"] [1, 2] ∧
    (buildJobs ["AAPL.US", "TSLA.US"] [1, 2]).Nodup :=
  ⟨(C6_task_set_cross_product ["AAPL.US", "TSLA.US"] [1, 2]).1,
   ((C6_task_set_cross_product ["AAPL.US", "TSLA.US"] [1, 2]).2.1 "AAPL.US" 2).mpr
     ⟨by decide, by decide⟩,
   (C6_task_set_cross_product ["AAPL.US", "TSLA.US"] [1, 2]).2.2.2.1
     (by decide) (by decide)⟩

/-- In the legacy sequential entry point a symbol whose table creation
failed contributes no executed job. -/
theorem seqMainJobsRun_not_mem (ef : String → Bool) (symbols : List String)
    (dates : List Int) (s : String) (d : Int) (h : ef s = true) :
    Job.mk s d ∉ seqMainJobsRun ef symbols dates := by
  induction symbols with
  | nil => simp [seqMainJobsRun]
  | cons s0 ss ih =>
    by_cases h0 : ef s0
    · simp only [seqMainJobsRun, if_pos h0]
      exact ih
    · simp only [seqMainJobsRun, if_neg h0, List.mem_append]
      rintro (hmap | hrest)
      · obtain ⟨x, _, he⟩ := List.mem_map.mp hmap
        injection he with hs hd
        rw [← hs] at h
        exact h0 (by rw [h])
      · exact ih hrest

/-- In the legacy sequential entry point every date of a symbol whose
table creation succeeded is executed. -/
theorem seqMainJobsRun_mem (ef : String → Bool) (symbols : List String)
    (dates : List Int) (s : String) (d : Int) (hs : s ∈ symbols) (hd : d ∈ dates)
    (h : ef s = false) : Job.mk s d ∈ seqMainJobsRun ef symbols dates := by
  induction symbols with
  | nil => cases hs
  | cons s0 ss ih =>
    rcases List.mem_cons.mp hs with h1 | h1
    · subst h1
      simp only [seqMainJobsRun, h, Bool.false_eq_true, if_false, List.mem_append]
      exact Or.inl (List.mem_map.mpr ⟨d, hd, rfl⟩)
    · by_cases h0 : ef s0
      · simp only [seqMainJobsRun, if_pos h0]
        exact ih h1
      · simp only [seqMainJobsRun, if_neg h0, List.mem_append]
        exact Or.inr (ih h1)

/-- C9 counterexample: with table creation failing exactly for AAPL.US,
the concurrent entry point still enqueues and executes the AAPL.US
jobs, so the claim that a creation failure makes all jobs of that
symbol skip does not hold for the concurrent pipeline. -/
theorem C9_ensure_failure_not_skipped_cex :
    efC9 "AAPL.US" = true ∧
    Job.mk "AAPL.US" 1 ∈ concMainJobs efC9 ["AAPL.US", "TSLA.US"] [1] := by
  constructor
  · rfl
  · decide

/-- C9 (amended): a table-creation failure is logged and the pipeline
continues for every symbol, but only the legacy sequential entry point
skips the failed symbol, executing no job of a symbol whose creation
failed and every job of the symbols whose creation succeeded; the
concurrent entry point attempts creation for every symbol and then
enqueues the full cross-product regardless of the creation outcomes, so
the failed symbol still has all of its jobs executed (and they fail
individually at insert time). -/
theorem C9_ensure_failure_handling (ef : String → Bool) (symbols : List String)
    (dates : List Int) :
    (∀ ef2 : String → Bool,
      concMainJobs ef symbols dates = concMainJobs ef2 symbols dates) ∧
    (∀ s ∈ symbols, (s, ef s) ∈ ensurePhase ef symbols) ∧
    (∀ (s : String) (d : Int), ef s = true →
      Job.mk s d ∉ seqMainJobsRun ef symbols dates) ∧
    (∀ (s : String) (d : Int), s ∈ symbols → d ∈ dates → ef s = false →
      Job.mk s d ∈ seqMainJobsRun ef symbols dates) ∧
    (∀ (s : String) (d : Int),
      Job.mk s d ∈ concMainJobs ef symbols dates ↔ (s ∈ symbols ∧ d ∈ dates)) := by
  refine ⟨fun ef2 => rfl, ?_, ?_, ?_, ?_⟩
  · intro s hs
    exact List.mem_map.mpr ⟨s, hs, rfl⟩
  · intro s d h
    exact seqMainJobsRun_not_mem ef symbols dates s d h
  · intro s d hs hd h
    exact seqMainJobsRun_mem ef symbols dates s d hs hd h
  · intro s d
    exact buildJobs_mem symbols dates s d

/-- C9 witness: with creation failing exactly for AAPL.US, the legacy
sequential entry point skips the AAPL.US job and still runs the TSLA.US
job. -/
theorem C9_ensure_failure_handling_witness :
    Job.mk "AAPL.US" 1 ∉ seqMainJobsRun efC9 ["AAPL.US", "TSLA.US"] [1] ∧
    Job.mk "TSLA.US" 1 ∈ seqMainJobsRun efC9 ["AAPL.US", "TSLA.US"] [1] :=
  ⟨(C9_ensure_failure_handling efC9 ["AAPL.US", "TSLA.US"] [1]).2.2.1
     "AAPL.US" 1 (by decide),
   (C9_ensure_failure_handling efC9 ["AAPL.US", "TSLA.US"] [1]).2.2.2.1
     "TSLA.US" 1 (by decide) (by decide) (by decide)⟩

/-- The attempt loop itself never touches the limiter: retries sleep
and call the remote service again without a new receive. -/
theorem runAttempts_no_permit (cfg : RetryConfig) (env : JobEnv) (symbol : String) :
    ∀ (fuel attempt : Nat) (tbl : Table),
      countPermits (runAttempts cfg env symbol attempt fuel tbl).1 = 0 := by
  intro fuel
  induction fuel with
  | zero => intro attempt tbl; rfl
  | succ n ih =>
    intro attempt tbl
    cases hf : env.fetch attempt with
    | fail =>
      by_cases ha : attempt < cfg.MaxAttempts
      · have hrec := ih (attempt + 1) tbl
        simp [runAttempts, hf, ha, countPermits, List.countP_cons] at hrec ⊢
        exact hrec
      · simp [runAttempts, hf, ha, countPermits, List.countP_cons]
    | ok points =>
      cases hi : InsertCandlesticks env.prepOk env.execFail tbl (transform symbol points) with
      | none => simp [runAttempts, hf, hi, countPermits, List.countP_cons]
      | some t => simp [runAttempts, hf, hi, countPermits, List.countP_cons]

/-- C4 counterexample: a job whose first attempt fails and whose second
succeeds makes two fetch attempts but passes the limiter only once, so
the number of limiter admissions does not equal the number of attempts. -/
theorem C4_permit_per_attempt_cex :
    countFetches (runJob retryCfg envC4 "AAPL.US" []).1 = 2 ∧
    countPermits (runJob retryCfg envC4 "AAPL.US" []).1 = 1 ∧
    countPermits (runJob retryCfg envC4 "AAPL.US" []).1 ≠
      countFetches (runJob retryCfg envC4 "AAPL.US" []).1 := by
  refine ⟨by decide, by decide, by decide⟩

/-- C4 (amended): each job passes the limiter exactly once, before its
first fetch attempt; a retry after a failed attempt sleeps the backoff
and refetches without acquiring a fresh limiter permit, so the number
of limiter admissions per job is one regardless of how many attempts
the job makes. -/
theorem C4_single_permit_per_job (cfg : RetryConfig) (env : JobEnv) (symbol : String)
    (tbl : Table) :
    countPermits (runJob cfg env symbol tbl).1 = 1 ∧
    (runJob cfg env symbol tbl).1.head? = some Event.permit := by
  constructor
  · have h0 := runAttempts_no_permit cfg env symbol cfg.MaxAttempts 1 tbl
    simp [runJob, countPermits, List.countP_cons] at h0 ⊢
    exact h0
  · rfl

/-- The backoff computation equals the capped exponential. -/
theorem backoffMS_eq_min (cfg : RetryConfig) (a : Nat) :
    backoffMS cfg a = min (cfg.BaseDelayMS * 2 ^ (a - 1)) cfg.MaxDelayMS := by
  unfold backoffMS
  rw [Nat.one_shiftLeft]
  by_cases h : cfg.BaseDelayMS * 2 ^ (a - 1) > cfg.MaxDelayMS
  · rw [if_pos h, Nat.min_eq_right (Nat.le_of_lt h)]
  · rw [if_neg h, Nat.min_eq_left (Nat.le_of_not_lt h)]

/-- When the first attempt of a job fails and attempts remain, the
first sleep of the job trace is the backoff of attempt one. -/
theorem runJob_first_sleep (cfg : RetryConfig) (env : JobEnv) (symbol : String)
    (tbl : Table) (hf : env.fetch 1 = FetchOutcome.fail) (h1 : 1 < cfg.MaxAttempts)
    (k : Nat) (hk : cfg.MaxAttempts = k + 1) :
    (sleepsOf (runJob cfg env symbol tbl).1).head? = some (backoffMS cfg 1) := by
  simp only [runJob, hk]
  simp [runAttempts, hf, h1, sleepsOf, List.filterMap_cons]

/-- C5: the backoff slept after failed attempt a of a job equals
min of BaseDelay times two to the a minus one and MaxDelay, with the
defaults BaseDelay five hundred milliseconds and MaxDelay two thousand;
the delays are monotonically non-decreasing in the attempt number,
never exceed MaxDelay, and every job restarts from BaseDelay: its first
backoff, slept when attempt one fails, is five hundred milliseconds. -/
theorem C5_backoff_policy (a : Nat) (ha : 1 ≤ a) :
    backoffMS retryCfg a = min (500 * 2 ^ (a - 1)) 2000 ∧
    (∀ b : Nat, a ≤ b → backoffMS retryCfg a ≤ backoffMS retryCfg b) ∧
    backoffMS retryCfg a ≤ 2000 ∧
    backoffMS retryCfg 1 = 500 ∧
    (∀ (env : JobEnv) (symbol : String) (tbl : Table),
      env.fetch 1 = FetchOutcome.fail →
      (sleepsOf (runJob retryCfg env symbol tbl).1).head? = some 500) := by
  refine ⟨backoffMS_eq_min retryCfg a, ?_, ?_, rfl, ?_⟩
  · intro b hab
    rw [backoffMS_eq_min, backoffMS_eq_min]
    exact min_le_min
      (Nat.mul_le_mul_left _ (Nat.pow_le_pow_right (by omega) (by omega)))
      (Nat.le_refl _)
  · rw [backoffMS_eq_min]
    exact Nat.min_le_right _ _
  · intro env symbol tbl hf
    have := runJob_first_sleep retryCfg env symbol tbl hf (by decide) 2 rfl
    simpa using this

/-- C5 witness at attempt two: one second, below the two-second cap and
below the (hypothetical) attempt-three value. -/
theorem C5_backoff_policy_witness :
    backoffMS retryCfg 2 = min (500 * 2 ^ (2 - 1)) 2000 ∧
    backoffMS retryCfg 2 ≤ backoffMS retryCfg 3 ∧
    backoffMS retryCfg 2 ≤ 2000 ∧
    (sleepsOf (runJob retryCfg allFailEnv "AAPL.US" []).1).head? = some 500 :=
  ⟨(C5_backoff_policy 2 (by decide)).1,
   (C5_backoff_policy 2 (by decide)).2.1 3 (by decide),
   (C5_backoff_policy 2 (by decide)).2.2.1,
   (C5_backoff_policy 2 (by decide)).2.2.2.2 allFailEnv "AAPL.US" [] rfl⟩

/-- Started with a positive attempt budget, the attempt loop always
ends by incrementing exactly one of the two counters. -/
theorem runAttempts_isSome (cfg : RetryConfig) (env : JobEnv) (symbol : String) :
    ∀ (fuel attempt : Nat) (tbl : Table), attempt + fuel = cfg.MaxAttempts + 1 →
      attempt ≤ cfg.MaxAttempts →
      ((runAttempts cfg env symbol attempt fuel tbl).2.1).isSome = true := by
  intro fuel
  induction fuel with
  | zero =>
    intro attempt tbl h hle
    omega
  | succ n ih =>
    intro attempt tbl h hle
    cases hf : env.fetch attempt with
    | fail =>
      by_cases ha : attempt < cfg.MaxAttempts
      · have hrec := ih (attempt + 1) tbl (by omega) (by omega)
        simp only [runAttempts, hf, if_pos ha]
        exact hrec
      · simp [runAttempts, hf, ha]
    | ok points =>
      cases hi : InsertCandlesticks env.prepOk env.execFail tbl (transform symbol points) with
      | none => simp [runAttempts, hf, hi]
      | some t => simp [runAttempts, hf, hi]

/-- When every attempt fails, the loop reaches the final attempt and
ends the job as a counted failure with the table unchanged. -/
theorem runAttempts_allFail (cfg : RetryConfig) (env : JobEnv) (symbol : String)
    (hfail : ∀ a, env.fetch a = FetchOutcome.fail) :
    ∀ (fuel attempt : Nat) (tbl : Table), attempt + fuel = cfg.MaxAttempts + 1 →
      attempt ≤ cfg.MaxAttempts →
      (runAttempts cfg env symbol attempt fuel tbl).2 = (some false, tbl) := by
  intro fuel
  induction fuel with
  | zero =>
    intro attempt tbl h hle
    omega
  | succ n ih =>
    intro attempt tbl h hle
    by_cases ha : attempt < cfg.MaxAttempts
    · have hrec := ih (attempt + 1) tbl (by omega) (by omega)
      simp only [runAttempts, hfail attempt, if_pos ha]
      exact hrec
    · simp [runAttempts, hfail attempt, ha]

/-- A job whose fetch fails on every attempt is counted failed exactly
once, with its table unchanged. -/
theorem runJob_allFail (env : JobEnv) (symbol : String) (tbl : Table)
    (hfail : ∀ a, env.fetch a = FetchOutcome.fail) :
    (runJob retryCfg env symbol tbl).2 = (some false, tbl) := by
  have h := runAttempts_allFail retryCfg env symbol hfail 3 1 tbl (by decide) (by decide)
  simp only [runJob]
  exact h

/-- In any run with the default policy, every job increments exactly
one of the success and failure counters, so the two totals add up to
the number of jobs. -/
theorem runJobs_total (hM : 1 ≤ retryCfg.MaxAttempts) :
    ∀ (L : List (String × JobEnv)) (db : String → Table),
      (runJobs retryCfg L db).1 + (runJobs retryCfg L db).2.1 = L.length := by
  intro L
  induction L with
  | nil => intro db; rfl
  | cons se rest ih =>
    intro db
    obtain ⟨s, env⟩ := se
    have hs : ((runJob retryCfg env s (db s)).2.1).isSome = true :=
      runAttempts_isSome retryCfg env s retryCfg.MaxAttempts 1 (db s) (by omega) hM
    cases hr : (runJob retryCfg env s (db s)).2.1 with
    | none => rw [hr] at hs; cases hs
    | some b =>
      cases b <;>
        simp only [runJobs, hr, List.length_cons] <;>
        rw [← ih (updateDB db s (runJob retryCfg env s (db s)).2.2)] <;>
        omega

/-- Overwriting a symbol with its current table is the identity. -/
theorem updateDB_self (db : String → Table) (s : String) :
    updateDB db s (db s) = db := by
  funext x
  unfold updateDB
  by_cases h : x = s
  · rw [if_pos h, h]
  · rw [if_neg h]

/-- C7: a job whose remote fetch fails on all MaxAttempts attempts ends
as failed, incrementing the failure counter by exactly one and the
success counter not at all, and the run is not aborted: the counters of
the whole run are those of the remaining jobs plus this single failure,
and in general every job increments exactly one of the two counters
exactly once. -/
theorem C7_exhausted_attempts_fail_once (env : JobEnv) (s : String)
    (rest : List (String × JobEnv)) (db : String → Table)
    (hfail : ∀ a, env.fetch a = FetchOutcome.fail) :
    (runJob retryCfg env s (db s)).2.1 = some false ∧
    (runJobs retryCfg ((s, env) :: rest) db).1 = (runJobs retryCfg rest db).1 ∧
    (runJobs retryCfg ((s, env) :: rest) db).2.1 =
      (runJobs retryCfg rest db).2.1 + 1 ∧
    (∀ (L : List (String × JobEnv)) (db2 : String → Table),
      (runJobs retryCfg L db2).1 + (runJobs retryCfg L db2).2.1 = L.length) := by
  have hj : (runJob retryCfg env s (db s)).2 = (some false, db s) :=
    runJob_allFail env s (db s) hfail
  have hj1 : (runJob retryCfg env s (db s)).2.1 = some false := by rw [hj]
  have hj2 : (runJob retryCfg env s (db s)).2.2 = db s := by rw [hj]
  refine ⟨hj1, ?_, ?_, runJobs_total (by decide)⟩
  · simp only [runJobs, hj1, hj2, updateDB_self]
  · simp only [runJobs, hj1, hj2, updateDB_self]

/-- C7 witness: one all-failing job on an empty store raises the
failure counter from zero to one. -/
theorem C7_exhausted_attempts_fail_once_witness :
    (runJobs retryCfg [("AAPL.US", allFailEnv)] (fun _ => ([] : Table))).2.1 =
      (runJobs retryCfg ([] : List (String × JobEnv)) (fun _ => ([] : Table))).2.1 + 1 :=
  (C7_exhausted_attempts_fail_once allFailEnv "AAPL.US" [] (fun _ => [])
    (fun a => rfl)).2.2.1
